import Mathlib

/-!
Verification of the dwca-tools streaming archive-to-table pipeline.

Shallow embedding of the relevant parts of `src/dwca_tools/convert.py`,
`src/dwca_tools/db.py` and `src/dwca_tools/summarize.py`. Pure functions of the
source become Lean functions; the database side effects become explicit state
passing; Python exceptions become `Except`.
-/

namespace DwcaTools

/-! ## Chunked reading (`convert.py`, `read_chunks`)

A row is the list of field strings that `csv.reader` with delimiter `"\t"`
produces from one line. The archives use unquoted tab-separated fields, so a
line parses to its tab-separated pieces.
-/

/-- A parsed data row: ordered list of field strings. -/
abbrev Row := List String

instance {e a : Type} [DecidableEq e] [DecidableEq a] : DecidableEq (Except e a)
  | .ok x, .ok y =>
      if h : x = y then isTrue (by rw [h]) else isFalse (fun hh => h (by cases hh; rfl))
  | .ok _, .error _ => isFalse (fun hh => Except.noConfusion hh)
  | .error _, .ok _ => isFalse (fun hh => Except.noConfusion hh)
  | .error x, .error y =>
      if h : x = y then isTrue (by rw [h]) else isFalse (fun hh => h (by cases hh; rfl))

/-- Splitting a character list at every tab, keeping empty fields, with `acc`
holding the current field reversed. -/
def splitTabsAux (acc : List Char) : List Char → List (List Char)
  | [] => [acc.reverse]
  | c :: cs =>
      if c = '\t' then acc.reverse :: splitTabsAux [] cs
      else splitTabsAux (c :: acc) cs

/-- Parsing of one unquoted tab-delimited line, as `csv.reader(..., delimiter="\t")`
does on quote-free input: split on the tab character, keeping empty fields. -/
def parseLine (s : String) : Row := (splitTabsAux [] s.data).map (fun cs => String.mk cs)

/-- The accumulation loop of `read_chunks`: `chunk` collects rows; once it
reaches `chunk_size` rows it is yielded and reset; a final non-empty chunk is
yielded after the loop. -/
def readChunksLoop (chunkSize : Nat) (chunk : List Row) : List Row → List (List Row)
  | [] => if chunk.isEmpty then [] else [chunk]
  | r :: rs =>
      if chunkSize ≤ (chunk ++ [r]).length then
        (chunk ++ [r]) :: readChunksLoop chunkSize [] rs
      else
        readChunksLoop chunkSize (chunk ++ [r]) rs

/-- Model of `read_chunks` from `convert.py`: the first line is the header, consumed
once; the remaining rows are yielded in `(headers, chunk)` pairs of at most
`chunk_size` rows each. -/
def read_chunks (headers : Row) (rows : List Row) (chunkSize : Nat) :
    List (Row × List Row) :=
  (readChunksLoop chunkSize [] rows).map (fun c => (headers, c))

/-- Model of `filter_columns` from `convert.py`: intersection of headers with the
desired columns, preserving header order; `none` means all headers. -/
def filter_columns (headers : List String) (columnsOfInterest : Option (List String)) :
    List String :=
  match columnsOfInterest with
  | some cols => headers.filter (fun col => col ∈ cols)
  | none => headers

/-- Python `list.index`: index of the first occurrence (callers only use it on
members, where it agrees with `List.indexOf`). -/
def pyIndex (l : List String) (x : String) : Nat := l.indexOf x

/-- Python `row[idx]` on a list: the element when `idx` is in range, an
`IndexError` otherwise. -/
def pyGetItem (row : Row) (idx : Nat) : Except String String :=
  if h : idx < row.length then .ok (row.get ⟨idx, h⟩) else .error "IndexError"

/-! Lemmas about the chunk loop. -/

theorem readChunksLoop_flatten (k : Nat) :
    ∀ (rows chunk : List Row), (readChunksLoop k chunk rows).flatten = chunk ++ rows := by
  intro rows
  induction rows with
  | nil =>
      intro chunk
      by_cases h : chunk.isEmpty
      · simp [readChunksLoop, h, List.isEmpty_iff.mp h]
      · simp [readChunksLoop, h]
  | cons r rs ih =>
      intro chunk
      simp only [readChunksLoop]
      split
      · simp [ih]
      · rw [ih]; simp

theorem readChunksLoop_mem_length (k : Nat) (hk : 0 < k) :
    ∀ (rows chunk : List Row), chunk.length < k →
      ∀ b ∈ readChunksLoop k chunk rows, 1 ≤ b.length ∧ b.length ≤ k := by
  intro rows
  induction rows with
  | nil =>
      intro chunk hc b hb
      by_cases h : chunk.isEmpty
      · simp [readChunksLoop, h] at hb
      · simp [readChunksLoop, h] at hb
        rw [hb]
        have hne : chunk ≠ [] := by
          intro hnil; simp [hnil] at h
        have : 0 < chunk.length := List.length_pos.mpr hne
        omega
  | cons r rs ih =>
      intro chunk hc b hb
      by_cases h : k ≤ (chunk ++ [r]).length
      · simp only [readChunksLoop, if_pos h] at hb
        rcases List.mem_cons.mp hb with hb | hb
        · rw [hb]
          simp only [List.length_append, List.length_cons, List.length_nil] at h ⊢
          omega
        · exact ih [] (by simpa using hk) b hb
      · simp only [readChunksLoop, if_neg h] at hb
        exact ih (chunk ++ [r]) (Nat.lt_of_not_le h) b hb

theorem readChunksLoop_dropLast_length (k : Nat) (hk : 0 < k) :
    ∀ (rows chunk : List Row), chunk.length < k →
      ∀ b ∈ (readChunksLoop k chunk rows).dropLast, b.length = k := by
  intro rows
  induction rows with
  | nil =>
      intro chunk hc b hb
      by_cases h : chunk.isEmpty
      · simp [readChunksLoop, h] at hb
      · simp [readChunksLoop, h] at hb
  | cons r rs ih =>
      intro chunk hc b hb
      by_cases h : k ≤ (chunk ++ [r]).length
      · simp only [readChunksLoop, if_pos h] at hb
        have hfull : (chunk ++ [r]).length = k := by
          simp only [List.length_append, List.length_cons, List.length_nil] at h ⊢
          omega
        cases hrest : readChunksLoop k [] rs with
        | nil => simp [hrest] at hb
        | cons c cs =>
            rw [hrest] at hb
            rw [List.dropLast_cons_of_ne_nil (by simp)] at hb
            rcases List.mem_cons.mp hb with hb | hb
            · rw [hb]; exact hfull
            · rw [← hrest] at hb
              exact ih [] (by simpa using hk) b hb
      · simp only [readChunksLoop, if_neg h] at hb
        exact ih (chunk ++ [r]) (Nat.lt_of_not_le h) b hb

/-! ## SQLite insertion row projection (`convert.py`, `_sqlite_insert_table`)

The batched-insert path builds, for each input row, the dict
`{col: row[idx] for col, idx in zip(filtered_columns, col_indices, strict=True)}`
where `col_indices = [headers.index(col) for col in filtered_columns]`.
A reference past the end of `row` is Python's `IndexError`.
-/

/-- Projection of one row along a list of `(column, index)` pairs; fails with
`IndexError` as soon as an index is out of range, as evaluation of the Python
dict comprehension does. -/
def projectPairs (row : Row) : List (String × Nat) → Except String (List (String × String))
  | [] => .ok []
  | ci :: rest => do
      let v ← pyGetItem row ci.2
      let vs ← projectPairs row rest
      pure ((ci.1, v) :: vs)

/-- The per-row dict built by `_sqlite_insert_table`. -/
def sqliteProjectRow (headers : Row) (cols : Option (List String)) (row : Row) :
    Except String (List (String × String)) :=
  projectPairs row ((filter_columns headers cols).map (fun col => (col, pyIndex headers col)))

/-- The rows handed to `session.execute(table.insert(), rows)` for one chunk. -/
def sqliteInsertChunk (headers : Row) (cols : Option (List String)) (chunk : List Row) :
    Except String (List (List (String × String))) :=
  chunk.mapM (sqliteProjectRow headers cols)

/-- Model of `_sqlite_insert_table`: every chunk from `read_chunks` is projected
and inserted; the result is the full list of inserted row dicts. The
`total_rows` estimate feeds only the progress bar and does not appear here. -/
def sqlite_insert_table (headers : Row) (dataRows : List Row) (cols : Option (List String))
    (chunkSize : Nat) : Except String (List (List (String × String))) :=
  ((read_chunks headers dataRows chunkSize).mapM
    (fun p => sqliteInsertChunk p.1 cols p.2)).map List.flatten

theorem projectPairs_ok (row : Row) :
    ∀ pairs : List (String × Nat), (∀ p ∈ pairs, p.2 < row.length) →
      ∃ vals, projectPairs row pairs = .ok vals ∧ vals.map Prod.fst = pairs.map Prod.fst := by
  intro pairs
  induction pairs with
  | nil => intro _; exact ⟨[], rfl, rfl⟩
  | cons ci rest ih =>
      intro h
      have hci : ci.2 < row.length := h ci (by simp)
      obtain ⟨vals, hv, hfst⟩ := ih (fun p hp => h p (by simp [hp]))
      refine ⟨(ci.1, row.get ⟨ci.2, hci⟩) :: vals, ?_, by simp [hfst]⟩
      simp only [projectPairs, pyGetItem, dif_pos hci, hv]
      rfl

theorem projectPairs_err (row : Row) :
    ∀ pairs : List (String × Nat), (∃ p ∈ pairs, row.length ≤ p.2) →
      projectPairs row pairs = .error "IndexError" := by
  intro pairs
  induction pairs with
  | nil => intro h; simp at h
  | cons ci rest ih =>
      intro h
      by_cases hci : ci.2 < row.length
      · have hrest : ∃ p ∈ rest, row.length ≤ p.2 := by
          rcases h with ⟨p, hp, hlen⟩
          rcases List.mem_cons.mp hp with hp | hp
          · rw [hp] at hlen; omega
          · exact ⟨p, hp, hlen⟩
        simp only [projectPairs, pyGetItem, dif_pos hci, ih hrest]
        rfl
      · simp only [projectPairs, pyGetItem, dif_neg hci]
        rfl

/-- C5: for every header, row list and positive batch size, `read_chunks`
yields a finite sequence of (header, batch) pairs: every pair carries the
header, every batch except possibly the last has exactly `chunk_size` rows,
every batch has between 1 and `chunk_size` rows, and the concatenation of the
batches is the input rows in order; in particular 20 rows chunked by 5 give
batch sizes [5, 5, 5, 5] and chunked by 7 give [7, 7, 6]. -/
theorem read_chunks_exact_batches :
    (∀ (headers : Row) (rows : List Row) (k : Nat), 0 < k →
      (∀ p ∈ read_chunks headers rows k, p.1 = headers) ∧
      ((read_chunks headers rows k).map Prod.snd).flatten = rows ∧
      (∀ b ∈ ((read_chunks headers rows k).map Prod.snd).dropLast, b.length = k) ∧
      (∀ p ∈ read_chunks headers rows k, 1 ≤ p.2.length ∧ p.2.length ≤ k)) ∧
    ((read_chunks ["h"] (List.replicate 20 ["x"]) 5).map (fun p => p.2.length)
      = [5, 5, 5, 5]) ∧
    ((read_chunks ["h"] (List.replicate 20 ["x"]) 7).map (fun p => p.2.length)
      = [7, 7, 6]) := by
  refine ⟨?_, by decide, by decide⟩
  intro headers rows k hk
  have hsnd : (read_chunks headers rows k).map Prod.snd = readChunksLoop k [] rows := by
    simp [read_chunks, List.map_map, Function.comp]
  refine ⟨?_, ?_, ?_, ?_⟩
  · intro p hp
    simp only [read_chunks, List.mem_map] at hp
    obtain ⟨c, _, hc⟩ := hp
    rw [← hc]
  · rw [hsnd, readChunksLoop_flatten]; rfl
  · rw [hsnd]
    exact readChunksLoop_dropLast_length k hk rows [] (by simpa using hk)
  · intro p hp
    simp only [read_chunks, List.mem_map] at hp
    obtain ⟨c, hc, hpc⟩ := hp
    have := readChunksLoop_mem_length k hk rows [] (by simpa using hk) c hc
    rw [← hpc]
    exact this

/-- Witness for C5 at the concrete 20-row table with batch size 5. -/
theorem read_chunks_exact_batches_witness :
    0 < 5 ∧ ((read_chunks ["h"] (List.replicate 20 ["x"]) 5).map Prod.snd).flatten
      = List.replicate 20 ["x"] :=
  ⟨by decide, (read_chunks_exact_batches.1 ["h"] (List.replicate 20 ["x"]) 5 (by decide)).2.1⟩

/-- C3 (counterexample): a tab-delimited stream whose data row has one field
more than the header passes through the chunked reader with no error, and the
batched-insert path inserts it with the extra field silently dropped — no
row-shape error is ever raised. -/
theorem read_chunks_extra_field_no_error :
    read_chunks (parseLine "h1\th2") [parseLine "a\tb\tc"] 10
      = [(["h1", "h2"], [["a", "b", "c"]])] ∧
    sqlite_insert_table (parseLine "h1\th2") [parseLine "a\tb\tc"] none 10
      = .ok [[("h1", "a"), ("h2", "b")]] := by
  decide

/-- C3 (amended): the chunked reader performs no field-count validation and
yields every data row whatever its shape; at insertion time a row is projected
by header index — a row covering all selected indices is inserted with any
extra fields silently ignored, and only a row too short for some selected
index fails, with Python's IndexError rather than a dedicated row-shape
error. -/
theorem read_chunks_row_shape_behavior :
    (∀ (headers : Row) (rows : List Row) (k : Nat), 0 < k →
      ((read_chunks headers rows k).map Prod.snd).flatten = rows) ∧
    (∀ (headers : Row) (cols : Option (List String)) (row : Row),
      (∀ i ∈ (filter_columns headers cols).map (pyIndex headers), i < row.length) →
      ∃ vals, sqliteProjectRow headers cols row = .ok vals ∧
        vals.map Prod.fst = filter_columns headers cols) ∧
    (∀ (headers : Row) (cols : Option (List String)) (row : Row),
      (∃ i ∈ (filter_columns headers cols).map (pyIndex headers), row.length ≤ i) →
      sqliteProjectRow headers cols row = .error "IndexError") := by
  refine ⟨?_, ?_, ?_⟩
  · intro headers rows k hk
    have hsnd : (read_chunks headers rows k).map Prod.snd = readChunksLoop k [] rows := by
      simp [read_chunks, List.map_map, Function.comp]
    rw [hsnd, readChunksLoop_flatten]; rfl
  · intro headers cols row h
    obtain ⟨vals, hv, hfst⟩ := projectPairs_ok row
      ((filter_columns headers cols).map (fun col => (col, pyIndex headers col)))
      (by
        intro p hp
        simp only [List.mem_map] at hp
        obtain ⟨col, hcol, hpc⟩ := hp
        have : p.2 = pyIndex headers col := by rw [← hpc]
        rw [this]
        exact h (pyIndex headers col) (List.mem_map_of_mem _ hcol))
    refine ⟨vals, hv, ?_⟩
    rw [hfst, List.map_map]
    simp [Function.comp_def]
  · intro headers cols row h
    apply projectPairs_err
    obtain ⟨i, hi, hlen⟩ := h
    simp only [List.mem_map] at hi
    obtain ⟨col, hcol, hic⟩ := hi
    refine ⟨(col, pyIndex headers col), List.mem_map_of_mem _ hcol, ?_⟩
    exact le_of_le_of_eq hlen hic.symm

/-- Witness for C3's amended theorem: a row shorter than the header fails with
IndexError on the concrete two-column header. -/
theorem read_chunks_row_shape_behavior_witness :
    (∃ i ∈ (filter_columns ["h1", "h2"] none).map (pyIndex ["h1", "h2"]),
      (["a"] : Row).length ≤ i) ∧
    sqliteProjectRow ["h1", "h2"] none ["a"] = .error "IndexError" :=
  ⟨by decide, read_chunks_row_shape_behavior.2.2 ["h1", "h2"] none ["a"] (by decide)⟩

/-! ## Identifier validation and schema creation (`db.py`) -/

/-- ASCII letter check. -/
def isAsciiAlpha (c : Char) : Bool := ('A' ≤ c && c ≤ 'Z') || ('a' ≤ c && c ≤ 'z')

/-- ASCII digit check. -/
def isAsciiDigit (c : Char) : Bool := '0' ≤ c && c ≤ '9'

/-- Character class `[A-Za-z_]`. -/
def isIdentStart (c : Char) : Bool := isAsciiAlpha c || c = '_'

/-- Character class `[A-Za-z0-9_]`. -/
def isIdentChar (c : Char) : Bool := isAsciiAlpha c || isAsciiDigit c || c = '_'

/-- Whole-list match of `[A-Za-z_][A-Za-z0-9_]*`. -/
def identCoreChars : List Char → Bool
  | [] => false
  | c :: rest => isIdentStart c && rest.all isIdentChar

/-- Python `re.match(r"^[A-Za-z_][A-Za-z0-9_]*$", s)` as a Boolean. Python's
`$` matches at the end of the string and also just before a single trailing
newline, so a name consisting of a valid identifier plus one trailing newline
is accepted by `re.match` even though the newline is outside both character
classes. -/
def pyIdentRegexMatch (s : String) : Bool :=
  identCoreChars s.data ||
    (match s.data.getLast? with
     | some c => c = '\n' && identCoreChars s.data.dropLast
     | none => false)

/-- Model of `validate_sql_identifier` from `db.py`: returns the name unchanged
when the regex matches, raises ValueError otherwise. -/
def validate_sql_identifier (name : String) : Except String String :=
  if pyIdentRegexMatch name then .ok name
  else .error ("Invalid SQL identifier: " ++ name)

/-- Modelled from the spec: the safe-identifier pattern as the spec words it —
first character a letter or underscore, remaining characters letters, digits,
or underscore. -/
def specSafeIdentifier (s : String) : Bool :=
  match s.data with
  | [] => false
  | c :: rest => isIdentStart c && rest.all isIdentChar

/-- A column declaration from `schemas.py` (`ColumnDefinition`): declared field
index (nullable) and extracted name. -/
structure ColumnDefinition where
  index : Option String
  name : String
  deriving DecidableEq

/-- A table discovered in `meta.xml` (`schemas.py` `TableDefinition`). -/
structure TableDefinition where
  name : String
  filename : String
  columns : List ColumnDefinition
  deriving DecidableEq

/-- Model of `create_table` from `db.py`: validate the table name, then for
every column whose index is non-null validate the column name and add a text
column; the result is the table's (name, column names) with the synthetic
auto-incrementing primary key `id` first. Nothing is executed here. -/
def create_table (tableName : String) (columns : List ColumnDefinition) :
    Except String (String × List String) := do
  let _ ← validate_sql_identifier tableName
  let colNames ← columns.foldlM
    (fun acc col =>
      match col.index with
      | some _ => do
          let _ ← validate_sql_identifier col.name
          pure (acc ++ [col.name])
      | none => pure acc)
    ([] : List String)
  pure (tableName, "id" :: colNames)

/-- Sequential effectful map over `Except`, stopping at the first error — the
shape of every sequential Python loop in this pipeline. -/
def exceptMapM {α β : Type} (f : α → Except String β) : List α → Except String (List β)
  | [] => .ok []
  | x :: xs => do
      let y ← f x
      let ys ← exceptMapM f xs
      pure (y :: ys)

/-- Model of `create_schema_from_meta` from `db.py`: every `create_table` runs
before `metadata.create_all(engine)` executes anything, so a validation error
surfaces before any schema statement is executed. -/
def create_schema_from_meta (tables : List TableDefinition) :
    Except String (List (String × List String)) :=
  exceptMapM (fun t => create_table t.name t.columns) tables

/-- C4 (code divergence at the failing input): the table name "occ\n" fails the
spec's safe-identifier pattern — a newline is neither a letter, digit, nor
underscore — yet `validate_sql_identifier` accepts it unchanged, because
Python's `$` also matches just before a trailing newline; `create_table`
therefore builds a schema for it without raising any identifier error. -/
theorem validate_sql_identifier_trailing_newline :
    specSafeIdentifier "occ\n" = false ∧
    validate_sql_identifier "occ\n" = .ok "occ\n" ∧
    create_table "occ\n" [] = .ok ("occ\n", ["id"]) := by
  decide

/-! ## Data insertion dispatcher (`convert.py`, `insert_data`)

For a PostgreSQL destination `insert_data` first executes
`SET session_replication_role = 'replica'`, then loads every table, and only
after the loop executes `SET session_replication_role = 'origin'`. The source
has no try/finally: an exception in any table's load propagates immediately
and the restore statement is never executed. The per-table load (threaded COPY
or batched insert) never touches the replication role, so it is abstracted as
an `Except`-valued call.
-/

/-- Destination-wide PostgreSQL state relevant to referential integrity:
`session_replication_role` is `"origin"` by default; `"replica"` disables
referential-integrity triggers. -/
structure PgState where
  replicationRole : String
  deriving DecidableEq

/-- The per-table loop of `insert_data`: first raised error propagates. -/
def insertDataTables (loadTable : TableDefinition → Except String Unit) :
    List TableDefinition → Option String
  | [] => none
  | t :: ts =>
      match loadTable t with
      | .error e => some e
      | .ok _ => insertDataTables loadTable ts

/-- Model of `insert_data` from `convert.py`: the final state and the surfaced
error, if any. The restore of the replication role happens only on the
fall-through path after the loop, exactly as in the source. -/
def insert_data (usePg : Bool) (tables : List TableDefinition)
    (loadTable : TableDefinition → Except String Unit) (st : PgState) :
    PgState × Option String :=
  let st1 := if usePg then { st with replicationRole := "replica" } else st
  match insertDataTables loadTable tables with
  | some e => (st1, some e)
  | none => (if usePg then { st1 with replicationRole := "origin" } else st1, none)

/-- The occurrence table of the fixture archive. -/
def occurrenceTable : TableDefinition :=
  { name := "occurrence", filename := "occurrence.txt", columns := [] }

/-- C1 (code divergence at the failing input): with a PostgreSQL destination
whose replication role starts at its default "origin", a load whose batch
raises makes `insert_data` surface the error while the role is still
"replica": the restore after the loop is skipped because the source has no
try/finally, so referential-integrity enforcement is left disabled. -/
theorem insert_data_role_left_disabled_on_failure :
    insert_data true [occurrenceTable] (fun _ => .error "BackendInsertError")
        { replicationRole := "origin" }
      = ({ replicationRole := "replica" }, some "BackendInsertError") := by
  decide

/-! ## Row estimation and the conversion pipeline (`convert.py`)

`estimate_and_display_row_counts` submits one `estimate_row_count` per table to
a thread pool and collects `future.result()` for each: a worker's exception is
re-raised by `result()`, so a failing estimate propagates out of the function.
Completion order affects only the display; the model collects the counts in
table order.
-/

/-- Model of `estimate_and_display_row_counts`: name-to-estimated-count map, or
the first estimation error, re-raised. -/
def estimate_and_display_row_counts (tables : List TableDefinition)
    (estimate : String → Except String Nat) : Except String (List (String × Nat)) :=
  exceptMapM (fun t => (estimate t.filename).map (fun n => (t.name, n))) tables

/-- Python dict access `d[key]`: KeyError when the key is missing. -/
def pyDictGet (d : List (String × Nat)) (key : String) : Except String Nat :=
  match d.lookup key with
  | some v => .ok v
  | none => .error "KeyError"

/-- Python `str.lower` (the identifiers this pipeline lowers are ASCII). -/
def pyLower (s : String) : String := String.mk (s.data.map Char.toLower)

/-- The column selection of `insert_data` (convert.py lines 287-294): the
configured columns of interest are intersected case-insensitively with the
schema's columns; `none` means no configured subset — transfer all columns. -/
def selectColumnsOfInterest (schemaCols : List String) (coi : Option (List String)) :
    Option (List String) :=
  match coi with
  | none => none
  | some cols => some (cols.filter (fun c => (schemaCols.map pyLower).contains (pyLower c)))

/-- Per-table insertion step of `insert_data`: look the estimate up as
`table_row_counts[table_def.name]` (a KeyError if absent), select columns
against the created schema, and insert the archive file's rows with the
batched path. The archive maps a filename to its (header, data rows). -/
def convertInsertTable (archive : String → Option (Row × List Row))
    (schema : List (String × List String))
    (columnsOfInterest : String → Option (List String))
    (chunkSize : Nat) (counts : List (String × Nat)) (t : TableDefinition) :
    Except String (String × List (List (String × String))) := do
  let _rowCount ← pyDictGet counts t.name
  let cols := selectColumnsOfInterest ((schema.lookup t.name).getD [])
    (columnsOfInterest t.name)
  match archive t.filename with
  | some file =>
      (sqlite_insert_table file.1 file.2 cols chunkSize).map
        (fun inserted => (t.name, inserted))
  | none => .error "KeyError"

/-- Model of the database-facing stages of the `convert` command on a
non-PostgreSQL destination: create the schema, estimate row counts (a failing
estimate propagates and aborts), then run the per-table insertion. The result
is the per-table list of inserted row dicts. -/
def convert_model (archive : String → Option (Row × List Row))
    (tables : List TableDefinition)
    (estimate : String → Except String Nat)
    (columnsOfInterest : String → Option (List String))
    (chunkSize : Nat) :
    Except String (List (String × List (List (String × String)))) := do
  let schema ← create_schema_from_meta tables
  let counts ← estimate_and_display_row_counts tables estimate
  exceptMapM (convertInsertTable archive schema columnsOfInterest chunkSize counts) tables

theorem exceptBind_ok {α β : Type} (a : α) (f : α → Except String β) :
    (Except.ok a >>= f) = f a := rfl

theorem exceptBind_error {α β : Type} (e : String) (f : α → Except String β) :
    ((Except.error e : Except String α) >>= f) = .error e := rfl

theorem estimate_counts_error (estimate : String → Except String Nat) :
    ∀ tables : List TableDefinition,
      (∃ t ∈ tables, ∃ e, estimate t.filename = .error e) →
      ∃ e2, estimate_and_display_row_counts tables estimate = .error e2 := by
  intro tables
  induction tables with
  | nil => intro h; simp at h
  | cons t ts ih =>
      intro h
      cases hft : estimate t.filename with
      | error e =>
          exact ⟨e, by simp [estimate_and_display_row_counts, exceptMapM, hft,
            Except.map, exceptBind_error]⟩
      | ok n =>
          have hts : ∃ u ∈ ts, ∃ e, estimate u.filename = .error e := by
            rcases h with ⟨u, hu, e, he⟩
            rcases List.mem_cons.mp hu with hu | hu
            · rw [hu] at he; rw [he] at hft; exact absurd hft (by simp)
            · exact ⟨u, hu, e, he⟩
          obtain ⟨e2, he2⟩ := ih hts
          refine ⟨e2, ?_⟩
          simp [estimate_and_display_row_counts, exceptMapM, hft, Except.map] at he2 ⊢
          rw [he2]
          rfl

theorem estimate_counts_ok (estimate : String → Except String Nat)
    (hok : ∀ f, ∃ n, estimate f = .ok n) :
    ∀ tables : List TableDefinition,
      ∃ counts, estimate_and_display_row_counts tables estimate = .ok counts ∧
        counts.map Prod.fst = tables.map TableDefinition.name := by
  intro tables
  induction tables with
  | nil => exact ⟨[], rfl, rfl⟩
  | cons t ts ih =>
      obtain ⟨n, hn⟩ := hok t.filename
      obtain ⟨counts, hc, hk⟩ := ih
      refine ⟨(t.name, n) :: counts, ?_, by simp [hk]⟩
      simp [estimate_and_display_row_counts, exceptMapM, hn, Except.map] at hc ⊢
      rw [hc]
      rfl

theorem pyDictGet_mem (d : List (String × Nat)) (key : String)
    (h : key ∈ d.map Prod.fst) : ∃ v, pyDictGet d key = .ok v := by
  induction d with
  | nil => simp at h
  | cons p ps ih =>
      by_cases hk : p.1 = key
      · exact ⟨p.2, by simp [pyDictGet, List.lookup, hk]⟩
      · have : key ∈ ps.map Prod.fst := by
          simp at h
          rcases h with h | h
          · exact absurd h.symm hk
          · simpa using h
        obtain ⟨v, hv⟩ := ih this
        refine ⟨v, ?_⟩
        simp [pyDictGet, List.lookup, hk] at hv ⊢
        cases hb : (key == p.1) with
        | true =>
            have heq : key = p.1 := by simpa using hb
            exact absurd heq.symm hk
        | false => simpa [hb] using hv

theorem exceptMapM_congr {α β : Type} (f g : α → Except String β) :
    ∀ l : List α, (∀ x ∈ l, f x = g x) → exceptMapM f l = exceptMapM g l := by
  intro l
  induction l with
  | nil => intro _; rfl
  | cons x xs ih =>
      intro h
      simp only [exceptMapM, h x (by simp), ih (fun y hy => h y (by simp [hy]))]

/-- The fixture-like archive used for concrete evaluations: one occurrence
file with a single-column header and two data rows. -/
def fixtureArchive : String → Option (Row × List Row) :=
  fun f => if f = "occurrence.txt" then some (["gbifID"], [["1"], ["2"]]) else none

/-- C2 (counterexample): with the concrete one-table archive, a failing
row-count estimation makes the whole conversion surface the estimation error —
no table is inserted — whereas the identical run with a succeeding estimation
inserts both rows; the claim that a failing estimate degrades to zero and the
run continues is false on this code. -/
theorem convert_model_estimation_abort_counterexample :
    convert_model fixtureArchive [occurrenceTable] (fun _ => .error "OSError")
        (fun _ => none) 500
      = .error "OSError" ∧
    convert_model fixtureArchive [occurrenceTable] (fun _ => .ok 2)
        (fun _ => none) 500
      = .ok [("occurrence", [[("gbifID", "1")], [("gbifID", "2")]])] := by
  refine ⟨?_, ?_⟩
  · decide
  · decide

/-- C2 (amended): a row-count estimation failure propagates and aborts the
conversion — if any table's estimate raises, the pipeline surfaces an error
and produces no insertion output; and the estimate is strictly a progress
display value — when all estimates succeed, runs differing only in the
estimated counts insert identical rows. -/
theorem convert_model_estimation_failure_aborts :
    (∀ archive tables estimate coi k,
      (∃ t ∈ tables, ∃ e, estimate t.filename = .error e) →
      ∃ e2, convert_model archive tables estimate coi k = .error e2) ∧
    (∀ archive tables est1 est2 coi k,
      (∀ f, ∃ n, est1 f = .ok n) → (∀ f, ∃ n, est2 f = .ok n) →
      convert_model archive tables est1 coi k
        = convert_model archive tables est2 coi k) := by
  constructor
  · intro archive tables estimate coi k h
    cases hcs : create_schema_from_meta tables with
    | error e =>
        exact ⟨e, by simp [convert_model, hcs, exceptBind_error]⟩
    | ok schema =>
        obtain ⟨e2, he2⟩ := estimate_counts_error estimate tables h
        exact ⟨e2, by simp [convert_model, hcs, he2, exceptBind_ok, exceptBind_error]⟩
  · intro archive tables est1 est2 coi k h1 h2
    obtain ⟨c1, hc1, hk1⟩ := estimate_counts_ok est1 h1 tables
    obtain ⟨c2, hc2, hk2⟩ := estimate_counts_ok est2 h2 tables
    cases hcs : create_schema_from_meta tables with
    | error e => simp [convert_model, hcs, exceptBind_error]
    | ok schema =>
        simp only [convert_model, hcs, hc1, hc2, exceptBind_ok]
        apply exceptMapM_congr
        intro t ht
        have hm1 : t.name ∈ c1.map Prod.fst := by
          rw [hk1]; exact List.mem_map_of_mem _ ht
        have hm2 : t.name ∈ c2.map Prod.fst := by
          rw [hk2]; exact List.mem_map_of_mem _ ht
        obtain ⟨v1, hv1⟩ := pyDictGet_mem c1 t.name hm1
        obtain ⟨v2, hv2⟩ := pyDictGet_mem c2 t.name hm2
        simp [convertInsertTable, hv1, hv2, exceptBind_ok]

/-- Witness for C2's amended theorem: two all-succeeding estimators that
disagree on every count give identical conversion output on the concrete
archive. -/
theorem convert_model_estimation_failure_aborts_witness :
    (∀ f : String, ∃ n, (fun _ : String => (Except.ok 2 : Except String Nat)) f = .ok n) ∧
    convert_model fixtureArchive [occurrenceTable] (fun _ => .ok 2) (fun _ => none) 500
      = convert_model fixtureArchive [occurrenceTable] (fun _ => .ok 999)
          (fun _ => none) 500 :=
  ⟨fun _ => ⟨2, rfl⟩,
    convert_model_estimation_failure_aborts.2 fixtureArchive [occurrenceTable]
      (fun _ => .ok 2) (fun _ => .ok 999) (fun _ => none) 500
      (fun _ => ⟨2, rfl⟩) (fun _ => ⟨999, rfl⟩)⟩

/-! ## Taxa aggregation (`summarize.py`)

A streamed row, as `_read_table_as_dicts` yields it, is a dict from column
name to field value; `row.get(col, "")` returns the empty string for a missing
column. The `_TaxaGroup` accumulator's Python sets are modelled as
duplicate-free lists grown by a membership-guarded append; `defaultdict`
becomes a lookup with a default plus a replace-or-append store.
-/

/-- A streamed row: association list from column name to field value. -/
abbrev RowDict := List (String × String)

/-- Python `row.get(col, "")`. -/
def rowGet (row : RowDict) (col : String) : String := (row.lookup col).getD ""

/-- Python `str.upper` (rank values compared by this pipeline are ASCII). -/
def pyUpper (s : String) : String := s.toUpper

/-- Accumulator `_TaxaGroup` from `summarize.py`. -/
structure TaxaGroup where
  gbif_ids : List String := []
  count : Nat := 0
  taxon_ids : List String := []
  sci_names : List String := []
  deriving DecidableEq

/-- Python `set.add` on a set modelled as a duplicate-free list. -/
def setAdd (s : List String) (x : String) : List String :=
  if x ∈ s then s else s ++ [x]

/-- Store a binding in a Python dict: replace the existing entry for the key
in place, or append a new entry. -/
def upsertAssoc {β : Type} : List (String × β) → String → β → List (String × β)
  | [], key, v => [(key, v)]
  | (k, g) :: rest, key, v =>
      if k = key then (k, v) :: rest else (k, g) :: upsertAssoc rest key v

/-- Whether a row survives the `species_only` filter: the loop body skips rows
with `row.get("taxonRank", "").upper() != "SPECIES"` when the flag is set. -/
def passesRankFilter (speciesOnly : Bool) (row : RowDict) : Bool :=
  !speciesOnly || (pyUpper (rowGet row "taxonRank") == "SPECIES")

/-- Add the row's gbifID to the entry's set when collecting gbifIDs and the
value is non-empty (`if gbif_id: entry.gbif_ids.add(gbif_id)`). -/
def entryStepGbif (collectGbifIds : Bool) (row : RowDict) (e : TaxaGroup) : TaxaGroup :=
  if collectGbifIds then
    if rowGet row "gbifID" ≠ "" then
      { e with gbif_ids := setAdd e.gbif_ids (rowGet row "gbifID") }
    else e
  else e

/-- Add the row's non-empty taxonID (`if tid: entry.taxon_ids.add(tid)`). -/
def entryStepTid (row : RowDict) (e : TaxaGroup) : TaxaGroup :=
  if rowGet row "taxonID" ≠ "" then
    { e with taxon_ids := setAdd e.taxon_ids (rowGet row "taxonID") }
  else e

/-- Add the row's non-empty scientificName (`if sn: entry.sci_names.add(sn)`). -/
def entryStepSn (row : RowDict) (e : TaxaGroup) : TaxaGroup :=
  if rowGet row "scientificName" ≠ "" then
    { e with sci_names := setAdd e.sci_names (rowGet row "scientificName") }
  else e

/-- The taxonID and scientificName updates, guarded by mismatch reporting. -/
def entryStepNames (showMismatchedNames : Bool) (row : RowDict) (e : TaxaGroup) : TaxaGroup :=
  if showMismatchedNames then entryStepSn row (entryStepTid row e) else e

/-- The updates applied to one group entry for one surviving row: increment
the count, then add the row's non-empty gbifID when collecting gbifIDs, then
add the row's non-empty taxonID and scientificName when mismatch reporting is
on; empty values are never added to a set. -/
def entryStep (showMismatchedNames collectGbifIds : Bool) (row : RowDict)
    (e : TaxaGroup) : TaxaGroup :=
  entryStepNames showMismatchedNames row
    (entryStepGbif collectGbifIds row { e with count := e.count + 1 })

/-- One iteration of the `_aggregate_occurrences` loop: skip the row if the
rank filter rejects it, otherwise update the accumulator of the group keyed by
the row's grouping-column value (the empty string when missing or empty). -/
def processRow (groupCol : String) (showMismatchedNames speciesOnly collectGbifIds : Bool)
    (groups : List (String × TaxaGroup)) (row : RowDict) : List (String × TaxaGroup) :=
  if passesRankFilter speciesOnly row then
    let key := rowGet row groupCol
    upsertAssoc groups key
      (entryStep showMismatchedNames collectGbifIds row ((groups.lookup key).getD {}))
  else groups

/-- Model of `_aggregate_occurrences`: single streaming pass over the
occurrence rows. -/
def aggregate_occurrences (rows : List RowDict) (groupCol : String)
    (showMismatchedNames speciesOnly collectGbifIds : Bool) :
    List (String × TaxaGroup) :=
  rows.foldl (processRow groupCol showMismatchedNames speciesOnly collectGbifIds) []

/-- Model of `_aggregate_images`: count multimedia rows per non-empty gbifID. -/
def aggregate_images (rows : List RowDict) : List (String × Nat) :=
  rows.foldl
    (fun counts row =>
      let g := rowGet row "gbifID"
      if g ≠ "" then upsertAssoc counts g (((counts.lookup g).getD 0) + 1) else counts)
    []

/-! Basic lemmas about the association-list operations. -/

theorem lookup_mem {β : Type} :
    ∀ (l : List (String × β)) (k : String) (v : β), l.lookup k = some v → (k, v) ∈ l := by
  intro l
  induction l with
  | nil => intro k v h; simp [List.lookup] at h
  | cons p ps ih =>
      intro k v h
      simp only [List.lookup] at h
      cases hb : (k == p.1) with
      | true =>
          rw [hb] at h
          simp at h
          have hk : k = p.1 := by simpa using hb
          have hkv : (k, v) = p := by
            cases p with
            | mk a b =>
                simp only at hk h
                simp [hk, h.symm]
          rw [hkv]
          exact List.mem_cons_self _ _
      | false =>
          rw [hb] at h
          exact List.mem_cons_of_mem _ (ih k v h)

theorem upsertAssoc_mem {β : Type} :
    ∀ (l : List (String × β)) (key : String) (v : β) (kg : String × β),
      kg ∈ upsertAssoc l key v → kg = (key, v) ∨ kg ∈ l := by
  intro l
  induction l with
  | nil => intro key v kg h; simp [upsertAssoc] at h; left; simpa using h
  | cons p ps ih =>
      intro key v kg h
      by_cases hk : p.1 = key
      · simp only [upsertAssoc, if_pos hk] at h
        rcases List.mem_cons.mp h with h | h
        · left; rw [h, hk]
        · right; exact List.mem_cons_of_mem _ h
      · simp only [upsertAssoc, if_neg hk] at h
        rcases List.mem_cons.mp h with h | h
        · right; rw [h]; exact List.mem_cons_self _ _
        · rcases ih key v kg h with h | h
          · left; exact h
          · right; exact List.mem_cons_of_mem _ h

theorem lookup_upsertAssoc_self {β : Type} :
    ∀ (l : List (String × β)) (key : String) (v : β),
      (upsertAssoc l key v).lookup key = some v := by
  intro l
  induction l with
  | nil => intro key v; simp [upsertAssoc, List.lookup]
  | cons p ps ih =>
      intro key v
      by_cases hk : p.1 = key
      · simp [upsertAssoc, if_pos hk, List.lookup, hk]
      · have hb : (key == p.1) = false := by
          simp
          intro he; exact hk he.symm
        simp [upsertAssoc, if_neg hk, List.lookup, hb, ih]

theorem lookup_upsertAssoc_other {β : Type} :
    ∀ (l : List (String × β)) (key k2 : String) (v : β), k2 ≠ key →
      (upsertAssoc l key v).lookup k2 = l.lookup k2 := by
  intro l
  induction l with
  | nil =>
      intro key k2 v hne
      have hb : (k2 == key) = false := by simpa using hne
      simp [upsertAssoc, List.lookup, hb]
  | cons p ps ih =>
      intro key k2 v hne
      by_cases hk : p.1 = key
      · have hb : (k2 == p.1) = false := by
          simp
          intro he; exact hne (he.trans hk)
        have hb2 : (k2 == key) = false := by simpa using hne
        simp [upsertAssoc, if_pos hk, List.lookup, hb, hk, hb2]
      · simp only [upsertAssoc, if_neg hk, List.lookup]
        cases hb : (k2 == p.1) with
        | true => rfl
        | false => exact ih key k2 v hne

/-! Characterizations of one entry update. -/

theorem setAdd_length (s : List String) (x : String) :
    (setAdd s x).length ≤ s.length + 1 := by
  unfold setAdd
  split
  · omega
  · simp

theorem setAdd_mem (s : List String) (x y : String) :
    y ∈ setAdd s x → y ∈ s ∨ y = x := by
  unfold setAdd
  split
  · intro h; exact Or.inl h
  · intro h
    rcases List.mem_append.mp h with h | h
    · exact Or.inl h
    · exact Or.inr (by simpa using h)

theorem entryStep_count (mm cg : Bool) (row : RowDict) (e : TaxaGroup) :
    (entryStep mm cg row e).count = e.count + 1 := by
  unfold entryStep entryStepNames entryStepSn entryStepTid entryStepGbif
  split_ifs <;> rfl

theorem entryStep_gbif_ids (mm cg : Bool) (row : RowDict) (e : TaxaGroup) :
    (entryStep mm cg row e).gbif_ids
      = if cg = true ∧ rowGet row "gbifID" ≠ "" then setAdd e.gbif_ids (rowGet row "gbifID")
        else e.gbif_ids := by
  unfold entryStep entryStepNames entryStepSn entryStepTid entryStepGbif
  split_ifs <;> simp_all

theorem entryStep_taxon_ids (mm cg : Bool) (row : RowDict) (e : TaxaGroup) :
    (entryStep mm cg row e).taxon_ids
      = if mm = true ∧ rowGet row "taxonID" ≠ "" then setAdd e.taxon_ids (rowGet row "taxonID")
        else e.taxon_ids := by
  unfold entryStep entryStepNames entryStepSn entryStepTid entryStepGbif
  split_ifs <;> simp_all

theorem entryStep_sci_names (mm cg : Bool) (row : RowDict) (e : TaxaGroup) :
    (entryStep mm cg row e).sci_names
      = if mm = true ∧ rowGet row "scientificName" ≠ ""
        then setAdd e.sci_names (rowGet row "scientificName")
        else e.sci_names := by
  unfold entryStep entryStepNames entryStepSn entryStepTid entryStepGbif
  split_ifs <;> simp_all

/-- The accumulator a `defaultdict` lookup observes for a key. -/
def groupAt (groups : List (String × TaxaGroup)) (key : String) : TaxaGroup :=
  (groups.lookup key).getD {}

/-- Occurrence count observed for a key. -/
def countAt (groups : List (String × TaxaGroup)) (key : String) : Nat :=
  (groupAt groups key).count

/-- Sum of all group counts. -/
def sumCounts (groups : List (String × TaxaGroup)) : Nat :=
  (groups.map (fun kg => kg.2.count)).sum

theorem groupAt_processRow (gc : String) (mm so cg : Bool)
    (groups : List (String × TaxaGroup)) (row : RowDict) (key : String) :
    groupAt (processRow gc mm so cg groups row) key
      = if passesRankFilter so row = true ∧ rowGet row gc = key
        then entryStep mm cg row (groupAt groups key)
        else groupAt groups key := by
  unfold processRow
  by_cases hp : passesRankFilter so row = true
  · simp only [if_pos hp]
    by_cases hk : rowGet row gc = key
    · rw [if_pos ⟨hp, hk⟩]
      unfold groupAt
      rw [hk, lookup_upsertAssoc_self]
      rfl
    · rw [if_neg (fun hc => hk hc.2)]
      unfold groupAt
      rw [lookup_upsertAssoc_other _ _ _ _ (fun he => hk he.symm)]
  · simp only [if_neg hp]
    rw [if_neg (fun hc => hp hc.1)]

theorem countAt_aggregate (gc : String) (mm so cg : Bool) (key : String) :
    ∀ (rows : List RowDict) (groups : List (String × TaxaGroup)),
      countAt (rows.foldl (processRow gc mm so cg) groups) key
        = countAt groups key
          + (rows.filter (fun r => passesRankFilter so r && (rowGet r gc == key))).length := by
  intro rows
  induction rows with
  | nil => intro groups; simp
  | cons r rs ih =>
      intro groups
      simp only [List.foldl_cons, List.filter_cons]
      rw [ih]
      by_cases hc : passesRankFilter so r = true ∧ rowGet r gc = key
      · have hcond : (passesRankFilter so r && (rowGet r gc == key)) = true := by
          simp [hc.1, hc.2]
        rw [hcond]
        have : countAt (processRow gc mm so cg groups r) key = countAt groups key + 1 := by
          unfold countAt
          rw [groupAt_processRow, if_pos hc, entryStep_count]
        rw [this]
        simp
        omega
      · have hcond : (passesRankFilter so r && (rowGet r gc == key)) = false := by
          cases hpp : passesRankFilter so r with
          | false => simp [hpp]
          | true =>
              have hk : rowGet r gc ≠ key := fun he => hc ⟨hpp, he⟩
              simp [hpp, hk]
        rw [hcond]
        have : countAt (processRow gc mm so cg groups r) key = countAt groups key := by
          unfold countAt
          rw [groupAt_processRow, if_neg hc]
        rw [this]
        simp

theorem sumCounts_upsertAssoc_some :
    ∀ (groups : List (String × TaxaGroup)) (key : String) (v g : TaxaGroup),
      groups.lookup key = some g →
      sumCounts (upsertAssoc groups key v) + g.count = sumCounts groups + v.count := by
  intro groups
  induction groups with
  | nil => intro key v g h; simp [List.lookup] at h
  | cons p ps ih =>
      intro key v g h
      by_cases hk : p.1 = key
      · have hb : (key == p.1) = true := by simp [hk]
        simp only [List.lookup, hb] at h
        have hg : g = p.2 := by simpa using h.symm
        simp only [upsertAssoc, if_pos hk, sumCounts, List.map_cons, List.sum_cons, hg]
        omega
      · have hb : (key == p.1) = false := by
          simp
          intro he; exact hk he.symm
        simp only [List.lookup, hb] at h
        have := ih key v g h
        simp only [upsertAssoc, if_neg hk, sumCounts, List.map_cons, List.sum_cons] at this ⊢
        omega

theorem sumCounts_upsertAssoc_none :
    ∀ (groups : List (String × TaxaGroup)) (key : String) (v : TaxaGroup),
      groups.lookup key = none →
      sumCounts (upsertAssoc groups key v) = sumCounts groups + v.count := by
  intro groups
  induction groups with
  | nil => intro key v _; simp [upsertAssoc, sumCounts]
  | cons p ps ih =>
      intro key v h
      by_cases hk : p.1 = key
      · have hb : (key == p.1) = true := by simp [hk]
        simp [List.lookup, hb] at h
      · have hb : (key == p.1) = false := by
          simp
          intro he; exact hk he.symm
        simp only [List.lookup, hb] at h
        have := ih key v h
        simp only [upsertAssoc, if_neg hk, sumCounts, List.map_cons, List.sum_cons] at this ⊢
        omega

theorem sumCounts_processRow (gc : String) (mm so cg : Bool)
    (groups : List (String × TaxaGroup)) (row : RowDict) :
    sumCounts (processRow gc mm so cg groups row)
      = sumCounts groups + (if passesRankFilter so row = true then 1 else 0) := by
  by_cases hp : passesRankFilter so row = true
  · have hpr : processRow gc mm so cg groups row
        = upsertAssoc groups (rowGet row gc)
            (entryStep mm cg row ((groups.lookup (rowGet row gc)).getD {})) := by
      simp [processRow, hp]
    rw [hpr]
    cases hl : groups.lookup (rowGet row gc) with
    | none =>
        have := sumCounts_upsertAssoc_none groups (rowGet row gc)
          (entryStep mm cg row (Option.getD none {})) hl
        rw [this, entryStep_count]
        simp [hp]
    | some g =>
        have := sumCounts_upsertAssoc_some groups (rowGet row gc)
          (entryStep mm cg row (Option.getD (some g) {})) g hl
        rw [entryStep_count] at this
        simp only [Option.getD_some] at this ⊢
        rw [if_pos hp]
        omega
  · simp [processRow, hp]

theorem sumCounts_aggregate (gc : String) (mm so cg : Bool) :
    ∀ (rows : List RowDict) (groups : List (String × TaxaGroup)),
      sumCounts (rows.foldl (processRow gc mm so cg) groups)
        = sumCounts groups + (rows.filter (fun r => passesRankFilter so r)).length := by
  intro rows
  induction rows with
  | nil => intro groups; simp
  | cons r rs ih =>
      intro groups
      simp only [List.foldl_cons, List.filter_cons]
      rw [ih, sumCounts_processRow]
      cases hp : passesRankFilter so r with
      | true =>
          simp [hp]
          omega
      | false => simp [hp]

/-- Any per-group predicate preserved by `entryStep` and true of the fresh
accumulator holds for every group the aggregation pass ever stores. -/
theorem aggregate_pred (gc : String) (mm so cg : Bool) (P : TaxaGroup → Prop)
    (hd : P {}) (hstep : ∀ row e, P e → P (entryStep mm cg row e)) :
    ∀ (rows : List RowDict) (groups : List (String × TaxaGroup)),
      (∀ kg ∈ groups, P kg.2) →
      ∀ kg ∈ rows.foldl (processRow gc mm so cg) groups, P kg.2 := by
  intro rows
  induction rows with
  | nil => intro groups h kg hm; exact h kg hm
  | cons r rs ih =>
      intro groups h kg hm
      simp only [List.foldl_cons] at hm
      refine ih (processRow gc mm so cg groups r) ?_ kg hm
      intro kg2 hm2
      by_cases hp : passesRankFilter so r = true
      · have hpr : processRow gc mm so cg groups r
            = upsertAssoc groups (rowGet r gc)
                (entryStep mm cg r ((groups.lookup (rowGet r gc)).getD {})) := by
          simp [processRow, hp]
        rw [hpr] at hm2
        rcases upsertAssoc_mem _ _ _ _ hm2 with he | he
        · rw [he]
          apply hstep
          cases hl : groups.lookup (rowGet r gc) with
          | none => simpa [hl] using hd
          | some g =>
              have := h _ (lookup_mem groups (rowGet r gc) g hl)
              simpa [hl] using this
        · exact h kg2 he
      · have hpr : processRow gc mm so cg groups r = groups := by
          simp [processRow, hp]
        rw [hpr] at hm2
        exact h kg2 hm2

/-- C8: for every occurrence stream, every flag combination and every prefix
of the stream (the invariant holds after each row is processed, not only at
the end), every group accumulator's occurrence count is at least the
cardinality of each of its tracked identifier sets — record identifiers
(gbifIDs), taxonIDs, and scientific names. -/
theorem aggregate_count_ge_set_sizes :
    ∀ (rows : List RowDict) (gc : String) (mm so cg : Bool) (p : List RowDict),
      p <+: rows →
      ∀ kg ∈ aggregate_occurrences p gc mm so cg,
        kg.2.gbif_ids.length ≤ kg.2.count ∧ kg.2.taxon_ids.length ≤ kg.2.count ∧
          kg.2.sci_names.length ≤ kg.2.count := by
  intro rows gc mm so cg p _ kg hm
  unfold aggregate_occurrences at hm
  refine aggregate_pred gc mm so cg
    (fun g => g.gbif_ids.length ≤ g.count ∧ g.taxon_ids.length ≤ g.count ∧
      g.sci_names.length ≤ g.count)
    (by simp) ?_ p [] (by simp) kg hm
  intro row e he
  obtain ⟨h1, h2, h3⟩ := he
  refine ⟨?_, ?_, ?_⟩
  · rw [entryStep_gbif_ids, entryStep_count]
    split_ifs with h
    · have := setAdd_length e.gbif_ids (rowGet row "gbifID")
      omega
    · omega
  · rw [entryStep_taxon_ids, entryStep_count]
    split_ifs with h
    · have := setAdd_length e.taxon_ids (rowGet row "taxonID")
      omega
    · omega
  · rw [entryStep_sci_names, entryStep_count]
    split_ifs with h
    · have := setAdd_length e.sci_names (rowGet row "scientificName")
      omega
    · omega

/-- One demonstration occurrence row stream. -/
def demoOccRows : List RowDict := [[("scientificName", "x"), ("taxonID", "7")]]

/-- The accumulator produced for group "x" from `demoOccRows`. -/
def demoGroup : TaxaGroup :=
  { gbif_ids := [], count := 1, taxon_ids := ["7"], sci_names := ["x"] }

/-- Witness for C8 on the concrete one-row stream. -/
theorem aggregate_count_ge_set_sizes_witness :
    (("x", demoGroup) ∈ aggregate_occurrences demoOccRows "scientificName" true false false) ∧
    (demoGroup.gbif_ids.length ≤ demoGroup.count ∧
      demoGroup.taxon_ids.length ≤ demoGroup.count ∧
      demoGroup.sci_names.length ≤ demoGroup.count) :=
  ⟨by decide,
    aggregate_count_ge_set_sizes demoOccRows "scientificName" true false false demoOccRows
      (List.prefix_refl _) ("x", demoGroup) (by decide)⟩

/-- C9: every row that survives the rank filter is aggregated under the group
keyed by its grouping-column value — the empty string when the value is
missing or empty — so each key's count is the number of surviving rows with
that value, the sum of all group counts is the number of surviving rows, and
a surviving row with an empty grouping value yields a stored group under the
empty-string key with a positive count rather than being dropped. -/
theorem aggregate_empty_key_counted :
    (∀ (rows : List RowDict) (gc : String) (mm so cg : Bool) (key : String),
      countAt (aggregate_occurrences rows gc mm so cg) key
        = (rows.filter (fun r => passesRankFilter so r && (rowGet r gc == key))).length) ∧
    (∀ (rows : List RowDict) (gc : String) (mm so cg : Bool),
      sumCounts (aggregate_occurrences rows gc mm so cg)
        = (rows.filter (fun r => passesRankFilter so r)).length) ∧
    (∀ (rows : List RowDict) (gc : String) (mm so cg : Bool),
      (∃ r ∈ rows, passesRankFilter so r = true ∧ rowGet r gc = "") →
      ∃ g, (aggregate_occurrences rows gc mm so cg).lookup "" = some g ∧ 1 ≤ g.count) := by
  have hcount : ∀ (rows : List RowDict) (gc : String) (mm so cg : Bool) (key : String),
      countAt (aggregate_occurrences rows gc mm so cg) key
        = (rows.filter (fun r => passesRankFilter so r && (rowGet r gc == key))).length := by
    intro rows gc mm so cg key
    unfold aggregate_occurrences
    rw [countAt_aggregate]
    simp [countAt, groupAt, List.lookup]
  refine ⟨hcount, ?_, ?_⟩
  · intro rows gc mm so cg
    unfold aggregate_occurrences
    rw [sumCounts_aggregate]
    simp [sumCounts]
  · intro rows gc mm so cg h
    obtain ⟨r, hr, hpass, hkey⟩ := h
    have h1 := hcount rows gc mm so cg ""
    have hmem : r ∈ rows.filter (fun r => passesRankFilter so r && (rowGet r gc == "")) :=
      List.mem_filter.mpr ⟨hr, by simp [hpass, hkey]⟩
    have hpos : 0 < (rows.filter
        (fun r => passesRankFilter so r && (rowGet r gc == ""))).length :=
      List.length_pos.mpr (List.ne_nil_of_mem hmem)
    cases hl : (aggregate_occurrences rows gc mm so cg).lookup "" with
    | none =>
        exfalso
        rw [← h1] at hpos
        simp [countAt, groupAt, hl] at hpos
    | some g =>
        refine ⟨g, rfl, ?_⟩
        have : countAt (aggregate_occurrences rows gc mm so cg) "" = g.count := by
          simp [countAt, groupAt, hl]
        omega

/-- Witness for C9's empty-key clause on a stream whose single row has no
grouping-column value at all. -/
theorem aggregate_empty_key_counted_witness :
    (∃ r ∈ ([[("taxonID", "7")]] : List RowDict),
      passesRankFilter false r = true ∧ rowGet r "scientificName" = "") ∧
    ∃ g, (aggregate_occurrences [[("taxonID", "7")]] "scientificName"
        false false false).lookup "" = some g ∧ 1 ≤ g.count :=
  ⟨⟨[("taxonID", "7")], by decide⟩,
    aggregate_empty_key_counted.2.2 [[("taxonID", "7")]] "scientificName" false false false
      ⟨[("taxonID", "7")], by decide⟩⟩

theorem groupAt_taxonIds_unchanged (gc : String) (mm so cg : Bool) (key : String) :
    ∀ (rows : List RowDict) (groups : List (String × TaxaGroup)),
      (∀ r ∈ rows, passesRankFilter so r = true → rowGet r gc = key →
        rowGet r "taxonID" = "") →
      (groupAt (rows.foldl (processRow gc mm so cg) groups) key).taxon_ids
        = (groupAt groups key).taxon_ids := by
  intro rows
  induction rows with
  | nil => intro groups _; rfl
  | cons r rs ih =>
      intro groups h
      simp only [List.foldl_cons]
      rw [ih _ (fun u hu => h u (List.mem_cons_of_mem _ hu))]
      rw [groupAt_processRow]
      split_ifs with hc
      · rw [entryStep_taxon_ids]
        have htid : rowGet r "taxonID" = "" := h r (List.mem_cons_self _ _) hc.1 hc.2
        rw [if_neg (fun hx => hx.2 htid)]
      · rfl

theorem foldl_skip_filter {σ : Type} (step : σ → RowDict → σ) (p : RowDict → Bool)
    (hskip : ∀ s r, p r = false → step s r = s) :
    ∀ (rows : List RowDict) (s : σ),
      rows.foldl step s = (rows.filter p).foldl step s := by
  intro rows
  induction rows with
  | nil => intro s; rfl
  | cons r rs ih =>
      intro s
      simp only [List.foldl_cons, List.filter_cons]
      cases hp : p r with
      | true => simp [ih]
      | false =>
          rw [hskip s r hp, ih]
          simp

/-- C10: an empty identifier value never reaches a distinct set while the
occurrence count still advances — the per-row entry update always increments
the count by one; no stored group's gbifID, taxonID or scientificName set ever
contains the empty string; a group all of whose surviving rows have an empty
taxonID reports zero distinct taxonIDs; and multimedia rows with an empty
record identifier contribute nothing to the image counts. -/
theorem aggregate_empty_ids_ignored :
    (∀ (mm cg : Bool) (row : RowDict) (e : TaxaGroup),
      (entryStep mm cg row e).count = e.count + 1) ∧
    (∀ (rows : List RowDict) (gc : String) (mm so cg : Bool),
      ∀ kg ∈ aggregate_occurrences rows gc mm so cg,
        "" ∉ kg.2.gbif_ids ∧ "" ∉ kg.2.taxon_ids ∧ "" ∉ kg.2.sci_names) ∧
    (∀ (rows : List RowDict) (gc : String) (mm so cg : Bool) (key : String),
      (∀ r ∈ rows, passesRankFilter so r = true → rowGet r gc = key →
        rowGet r "taxonID" = "") →
      (groupAt (aggregate_occurrences rows gc mm so cg) key).taxon_ids.length = 0) ∧
    (∀ mmRows : List RowDict,
      aggregate_images mmRows
        = aggregate_images (mmRows.filter (fun r => !(rowGet r "gbifID" == "")))) := by
  refine ⟨fun mm cg row e => entryStep_count mm cg row e, ?_, ?_, ?_⟩
  · intro rows gc mm so cg kg hm
    unfold aggregate_occurrences at hm
    refine aggregate_pred gc mm so cg
      (fun g => "" ∉ g.gbif_ids ∧ "" ∉ g.taxon_ids ∧ "" ∉ g.sci_names)
      (by simp) ?_ rows [] (by simp) kg hm
    intro row e he
    obtain ⟨h1, h2, h3⟩ := he
    refine ⟨?_, ?_, ?_⟩
    · rw [entryStep_gbif_ids]
      split_ifs with h
      · intro hmem
        rcases setAdd_mem _ _ _ hmem with hx | hx
        · exact h1 hx
        · exact h.2 hx.symm
      · exact h1
    · rw [entryStep_taxon_ids]
      split_ifs with h
      · intro hmem
        rcases setAdd_mem _ _ _ hmem with hx | hx
        · exact h2 hx
        · exact h.2 hx.symm
      · exact h2
    · rw [entryStep_sci_names]
      split_ifs with h
      · intro hmem
        rcases setAdd_mem _ _ _ hmem with hx | hx
        · exact h3 hx
        · exact h.2 hx.symm
      · exact h3
  · intro rows gc mm so cg key h
    unfold aggregate_occurrences
    rw [groupAt_taxonIds_unchanged gc mm so cg key rows [] h]
    rfl
  · intro mmRows
    unfold aggregate_images
    apply foldl_skip_filter
    intro s r hp
    have hg : rowGet r "gbifID" = "" := by simpa using hp
    simp [hg]

/-- Witness for C10's all-empty-taxonID clause: a group whose only row has an
empty taxonID value reports zero distinct taxonIDs. -/
theorem aggregate_empty_ids_ignored_witness :
    (∀ r ∈ ([[("scientificName", "x"), ("taxonID", "")]] : List RowDict),
      passesRankFilter false r = true → rowGet r "scientificName" = "x" →
        rowGet r "taxonID" = "") ∧
    (groupAt (aggregate_occurrences [[("scientificName", "x"), ("taxonID", "")]]
        "scientificName" true false false) "x").taxon_ids.length = 0 :=
  ⟨by decide,
    aggregate_empty_ids_ignored.2.2.1 [[("scientificName", "x"), ("taxonID", "")]]
      "scientificName" true false false "x" (by decide)⟩

/-! ## Result building and ordering (`summarize.py`, `_build_taxa_results`) -/

/-- One result tuple `(name, count, img_count, n_taxon_ids, n_sci_names)` of
`_build_taxa_results`. -/
structure TaxaResultRow where
  name : String
  count : Nat
  img_count : Nat
  n_taxon_ids : Nat
  n_sci_names : Nat
  deriving DecidableEq

/-- Python `image_counts.get(gid, 0)`. -/
def imageCountGet (imageCounts : List (String × Nat)) (gid : String) : Nat :=
  (imageCounts.lookup gid).getD 0

/-- The tuple computed for one group: occurrence count, the sum of the image
counts of its gbifIDs, and the distinct-set sizes. -/
def taxaRowOf (imageCounts : List (String × Nat)) (kg : String × TaxaGroup) :
    TaxaResultRow :=
  { name := kg.1, count := kg.2.count,
    img_count := (kg.2.gbif_ids.map (imageCountGet imageCounts)).sum,
    n_taxon_ids := kg.2.taxon_ids.length,
    n_sci_names := kg.2.sci_names.length }

/-- The total preorder induced by `results.sort(key=lambda r: (-r[1], r[0]))`:
occurrence count descending, ties broken by name ascending. -/
def taxaKeyLe (a b : TaxaResultRow) : Prop :=
  b.count < a.count ∨ (a.count = b.count ∧ a.name ≤ b.name)

instance : DecidableRel taxaKeyLe := fun a b => by
  unfold taxaKeyLe
  infer_instance

instance : IsTotal TaxaResultRow taxaKeyLe :=
  ⟨by
    intro a b
    unfold taxaKeyLe
    rcases Nat.lt_trichotomy a.count b.count with h | h | h
    · right; left; exact h
    · rcases le_total a.name b.name with hn | hn
      · left; right; exact ⟨h, hn⟩
      · right; right; exact ⟨h.symm, hn⟩
    · left; left; exact h⟩

instance : IsTrans TaxaResultRow taxaKeyLe :=
  ⟨by
    intro a b c hab hbc
    unfold taxaKeyLe at hab hbc ⊢
    rcases hab with h1 | ⟨h1, h1n⟩
    · rcases hbc with h2 | ⟨h2, _⟩
      · left; omega
      · left; omega
    · rcases hbc with h2 | ⟨h2, h2n⟩
      · left; omega
      · right; exact ⟨h1.trans h2, le_trans h1n h2n⟩⟩

/-- Model of `_build_taxa_results`: one tuple per group, then
`results.sort(key=lambda r: (-r[1], r[0]))`. Python's stable sort is modelled
by insertion sort; on tuples with pairwise distinct names every sort by this
key produces the same list. -/
def build_taxa_results (groups : List (String × TaxaGroup))
    (imageCounts : List (String × Nat)) : List TaxaResultRow :=
  List.insertionSort taxaKeyLe (groups.map (taxaRowOf imageCounts))

theorem taxaKeyLe_antisymm_names {a b : TaxaResultRow}
    (h1 : taxaKeyLe a b) (h2 : taxaKeyLe b a) : a.name = b.name := by
  unfold taxaKeyLe at h1 h2
  rcases h1 with h1 | ⟨h1c, h1n⟩
  · rcases h2 with h2 | ⟨h2c, _⟩
    · exfalso; omega
    · exfalso; omega
  · rcases h2 with h2 | ⟨h2c, h2n⟩
    · exfalso; omega
    · exact le_antisymm h1n h2n

theorem eq_of_perm_of_pairwise {α : Type} {r : α → α → Prop}
    (ha : ∀ a b, r a b → r b a → False) :
    ∀ (l1 l2 : List α), l1.Perm l2 → l1.Pairwise r → l2.Pairwise r → l1 = l2 := by
  intro l1
  induction l1 with
  | nil =>
      intro l2 hp _ _
      exact hp.nil_eq
  | cons a t ih =>
      intro l2 hp h1 h2
      cases l2 with
      | nil => exact absurd hp.symm.nil_eq (by simp)
      | cons b t2 =>
          have hab : a = b := by
            by_contra hne
            have ha2 : a ∈ t2 := by
              have hm : a ∈ b :: t2 := hp.mem_iff.mp (List.mem_cons_self a t)
              rcases List.mem_cons.mp hm with h | h
              · exact absurd h hne
              · exact h
            have hb1 : b ∈ t := by
              have hm : b ∈ a :: t := hp.mem_iff.mpr (List.mem_cons_self b t2)
              rcases List.mem_cons.mp hm with h | h
              · exact absurd h.symm hne
              · exact h
            have hr1 : r a b := (List.pairwise_cons.mp h1).1 b hb1
            have hr2 : r b a := (List.pairwise_cons.mp h2).1 a ha2
            exact ha a b hr1 hr2
          subst hab
          have hpt : t.Perm t2 := hp.cons_inv
          rw [ih t2 hpt (List.pairwise_cons.mp h1).2 (List.pairwise_cons.mp h2).2]

theorem sorted_nodup_names_unique :
    ∀ l1 l2 : List TaxaResultRow, l1.Perm l2 →
      List.Sorted taxaKeyLe l1 → List.Sorted taxaKeyLe l2 →
      (l1.map TaxaResultRow.name).Nodup → l1 = l2 := by
  intro l1 l2 hp hs1 hs2 hnd
  have hnd2 : (l2.map TaxaResultRow.name).Nodup := (hp.map TaxaResultRow.name).nodup hnd
  have hpair1 : l1.Pairwise (fun a b => TaxaResultRow.name a ≠ TaxaResultRow.name b) :=
    List.pairwise_map.mp hnd
  have hpair2 : l2.Pairwise (fun a b => TaxaResultRow.name a ≠ TaxaResultRow.name b) :=
    List.pairwise_map.mp hnd2
  refine eq_of_perm_of_pairwise
    (r := fun a b => taxaKeyLe a b ∧ a.name ≠ b.name) ?_ l1 l2 hp ?_ ?_
  · intro a b hab hba
    exact hab.2 (taxaKeyLe_antisymm_names hab.1 hba.1)
  · exact hs1.and hpair1
  · exact hs2.and hpair2

/-- C6: for every group map (association list with pairwise-distinct names)
and every image-count map, the taxa result list is the per-group tuples sorted
by occurrence count descending with ties broken by group name ascending, and
this ordering is a deterministic function of the aggregated data: any sorted
permutation of the tuples equals it, and enumerating the same map in a
different order yields the identical result sequence. -/
theorem build_taxa_results_sorted_deterministic :
    ∀ (groups : List (String × TaxaGroup)) (imageCounts : List (String × Nat)),
      (groups.map Prod.fst).Nodup →
      List.Sorted taxaKeyLe (build_taxa_results groups imageCounts) ∧
      (build_taxa_results groups imageCounts).Perm
        (groups.map (taxaRowOf imageCounts)) ∧
      (∀ l : List TaxaResultRow,
        l.Perm (groups.map (taxaRowOf imageCounts)) →
        List.Sorted taxaKeyLe l → l = build_taxa_results groups imageCounts) ∧
      (∀ groups2 : List (String × TaxaGroup), groups.Perm groups2 →
        build_taxa_results groups2 imageCounts
          = build_taxa_results groups imageCounts) := by
  intro groups ic hnodup
  have hnames : ∀ gs : List (String × TaxaGroup),
      (gs.map (taxaRowOf ic)).map TaxaResultRow.name = gs.map Prod.fst := by
    intro gs
    rw [List.map_map]
    rfl
  have hsorted : List.Sorted taxaKeyLe (build_taxa_results groups ic) :=
    List.sorted_insertionSort taxaKeyLe _
  have hperm : (build_taxa_results groups ic).Perm (groups.map (taxaRowOf ic)) :=
    List.perm_insertionSort taxaKeyLe _
  have hndrows : ((groups.map (taxaRowOf ic)).map TaxaResultRow.name).Nodup := by
    rw [hnames]
    exact hnodup
  refine ⟨hsorted, hperm, ?_, ?_⟩
  · intro l hlp hls
    have hl : l.Perm (build_taxa_results groups ic) := hlp.trans hperm.symm
    have hndl : (l.map TaxaResultRow.name).Nodup :=
      ((hlp.map TaxaResultRow.name).symm.nodup hndrows)
    exact sorted_nodup_names_unique l (build_taxa_results groups ic) hl hls
      (List.sorted_insertionSort taxaKeyLe _) hndl
  · intro groups2 hgp
    have hp2 : (build_taxa_results groups2 ic).Perm (build_taxa_results groups ic) :=
      (List.perm_insertionSort taxaKeyLe _).trans
        ((hgp.map (taxaRowOf ic)).symm.trans hperm.symm)
    have hnd2 : ((build_taxa_results groups2 ic).map TaxaResultRow.name).Nodup := by
      have hq : ((build_taxa_results groups2 ic).map TaxaResultRow.name).Perm
          ((build_taxa_results groups ic).map TaxaResultRow.name) :=
        hp2.map TaxaResultRow.name
      have hnb : ((build_taxa_results groups ic).map TaxaResultRow.name).Nodup :=
        (hperm.map TaxaResultRow.name).symm.nodup hndrows
      exact hq.symm.nodup hnb
    exact sorted_nodup_names_unique _ _ hp2
      (List.sorted_insertionSort taxaKeyLe _)
      (List.sorted_insertionSort taxaKeyLe _) hnd2

/-- Witness for C6 on a concrete two-group map with equal counts: the result
is sorted with the name tie-break. -/
theorem build_taxa_results_sorted_deterministic_witness :
    (([("b", { count := 1 }), ("a", { count := 1 })]
        : List (String × TaxaGroup)).map Prod.fst).Nodup ∧
    List.Sorted taxaKeyLe
      (build_taxa_results [("b", { count := 1 }), ("a", { count := 1 })] []) :=
  ⟨by decide,
    (build_taxa_results_sorted_deterministic
      [("b", { count := 1 }), ("a", { count := 1 })] [] (by decide)).1⟩

/-! ## Manifest table naming (`summarize.py`, `summarize_tables`)

`extract_table_name_from_filename` is
`urlparse(filename).path.split("/")[-1].split(".")[0].lower()`. The relevant
semantics of Python's `urllib.parse.urlparse` are modelled on character lists:
a well-formed `scheme:` prefix is stripped, a leading `//netloc` is stripped,
the `#fragment` and `?query` are dropped, and for a scheme that uses
parameters the `;params` of the last path segment is dropped.
-/

/-- Characters allowed in a URL scheme after the first: letters, digits, and
plus, minus, dot (Python `urllib.parse.scheme_chars`). -/
def isSchemeChar (c : Char) : Bool :=
  isAsciiAlpha c || isAsciiDigit c || c = '+' || c = '-' || c = '.'

/-- The schemes for which `urlparse` splits `;parameters` off the last path
segment (`uses_params`); the empty scheme is among them. -/
def usesParams (scheme : List Char) : Bool :=
  (["", "ftp", "hdl", "prtsp", "rtsp", "http", "imap", "wais", "file", "mms",
    "https", "shttp", "snews", "prospero", "rtspu", "rtsps", "videotex", "ws",
    "wss", "sip", "sips", "tel", "telnet", "svn", "svn+ssh", "sftp", "nfs",
    "git", "git+ssh"] : List String).contains (String.mk scheme)

/-- Python `urllib.parse._splitparams` restricted to the path: drop `;params`
from the last path segment (from the whole path when it has no slash). -/
def splitparamsPath (l : List Char) : List Char :=
  if '/' ∈ l then
    let seg := (l.reverse.takeWhile (fun c => c ≠ '/')).reverse
    if ';' ∈ seg then
      l.take (l.length - seg.length) ++ seg.takeWhile (fun c => c ≠ ';')
    else l
  else l.takeWhile (fun c => c ≠ ';')

/-- Scheme splitting of `urlsplit`: when the text before the first colon is a
non-empty ASCII-letter-initial run of scheme characters, it is the scheme
(lower-cased) and the rest follows the colon; otherwise the scheme is empty
and the URL is unchanged. -/
def urlparseAfterScheme (url : List Char) : List Char × List Char :=
  let pre := url.takeWhile (fun c => c ≠ ':')
  if pre.length < url.length ∧ pre ≠ [] ∧
      isAsciiAlpha (pre.headD ' ') = true ∧ pre.all isSchemeChar = true then
    (pre.map Char.toLower, url.drop (pre.length + 1))
  else ([], url)

/-- Netloc splitting of `urlsplit`: a part led by a double slash extends to
the next slash, question mark or hash. -/
def urlparseStripNetloc (rest : List Char) : List Char :=
  if rest.take 2 = ['/', '/'] then
    (rest.drop 2).dropWhile (fun c => !(c = '/' || c = '?' || c = '#'))
  else rest

/-- The `path` component of Python `urlparse`, on the URL's characters. -/
def urlparsePath (url : List Char) : List Char :=
  let sr := urlparseAfterScheme url
  let rest4 := ((urlparseStripNetloc sr.2).takeWhile
    (fun c => c ≠ '#')).takeWhile (fun c => c ≠ '?')
  if usesParams sr.1 && decide (';' ∈ rest4) then splitparamsPath rest4 else rest4

/-- Model of `extract_name_from_term`: the last component of a term URI,
`term.rsplit("/", maxsplit=1)[-1]`. -/
def extract_name_from_term (term : String) : String :=
  String.mk (term.data.reverse.takeWhile (fun c => c ≠ '/')).reverse

/-- Model of `extract_table_name_from_filename`:
`urlparse(filename).path.split("/")[-1].split(".")[0].lower()`. -/
def extract_table_name_from_filename (filename : String) : String :=
  pyLower (String.mk
    (((urlparsePath filename.data).reverse.takeWhile
        (fun c => c ≠ '/')).reverse.takeWhile (fun c => c ≠ '.')))

/-- Modelled from the spec: the table name is the source file's base name with
any path prefix stripped (text after the last slash), the extension stripped
(truncate at the first dot), lower-cased. -/
def specTableNameFromFilename (filename : String) : String :=
  pyLower (String.mk
    ((filename.data.reverse.takeWhile
        (fun c => c ≠ '/')).reverse.takeWhile (fun c => c ≠ '.')))

/-- One table declaration of `meta.xml` as `summarize_tables` reads it: the
row-type attribute (read only by the unused `extract_table_name_from_rowtype`
helper), the optional `files/location` text, and the `(index, term)` attribute
pairs of the `field` children. -/
structure ManifestTableDecl where
  rowType : Option String
  location : Option String
  fields : List (Option String × Option String)
  deriving DecidableEq

/-- The filename `summarize_tables` uses for a declaration: the location text
when present and non-empty, else the sentinel "Unknown". -/
def declFilename (d : ManifestTableDecl) : String :=
  match d.location with
  | some s => if s ≠ "" then s else "Unknown"
  | none => "Unknown"

/-- The TableDefinition built for one declaration: the name comes from the
declared file name — never from the row type — and one column is appended per
field that carries a term attribute. -/
def summarizeOneTable (d : ManifestTableDecl) : TableDefinition :=
  { name := extract_table_name_from_filename (declFilename d),
    filename := declFilename d,
    columns := d.fields.filterMap (fun f =>
      match f.2 with
      | some term =>
          if term ≠ "" then some ⟨f.1, extract_name_from_term term⟩ else none
      | none => none) }

/-- Model of `summarize_tables`: the core declaration followed by the
extension declarations, in manifest order, each summarized the same way. -/
def summarize_tables (decls : List ManifestTableDecl) : List TableDefinition :=
  decls.map summarizeOneTable

/-- A plain file path: none of the URL metacharacters colon, question mark,
hash, semicolon, and no leading double slash — the shape of every data-file
location a well-formed archive manifest declares. -/
def plainPath (s : String) : Prop :=
  ':' ∉ s.data ∧ '?' ∉ s.data ∧ '#' ∉ s.data ∧ ';' ∉ s.data ∧
    s.data.take 2 ≠ ['/', '/']

instance (s : String) : Decidable (plainPath s) := by
  unfold plainPath
  infer_instance

theorem takeWhile_of_all {α : Type} (p : α → Bool) :
    ∀ l : List α, (∀ c ∈ l, p c = true) → l.takeWhile p = l := by
  intro l
  induction l with
  | nil => intro _; rfl
  | cons c cs ih =>
      intro h
      simp only [List.takeWhile]
      rw [h c (List.mem_cons_self _ _)]
      simp [ih (fun u hu => h u (List.mem_cons_of_mem _ hu))]

theorem urlparseAfterScheme_no_colon (l : List Char) (h : ':' ∉ l) :
    urlparseAfterScheme l = ([], l) := by
  unfold urlparseAfterScheme
  have hpre : l.takeWhile (fun c => c ≠ ':') = l := by
    apply takeWhile_of_all
    intro c hm
    simp only [decide_eq_true_eq]
    intro he
    rw [he] at hm
    exact h hm
  rw [hpre]
  rw [if_neg (fun hco => absurd hco.1 (lt_irrefl _))]

theorem urlparseStripNetloc_plain (l : List Char) (h : l.take 2 ≠ ['/', '/']) :
    urlparseStripNetloc l = l := by
  unfold urlparseStripNetloc
  rw [if_neg h]

theorem urlparsePath_plain (s : String) (hp : plainPath s) :
    urlparsePath s.data = s.data := by
  obtain ⟨hc, hq, hh, hsemi, hslash⟩ := hp
  unfold urlparsePath
  rw [urlparseAfterScheme_no_colon s.data hc]
  simp only
  rw [urlparseStripNetloc_plain s.data hslash]
  have h3 : s.data.takeWhile (fun c => c ≠ '#') = s.data := by
    apply takeWhile_of_all
    intro c hm
    simp only [decide_eq_true_eq]
    intro he
    rw [he] at hm
    exact hh hm
  have h4 : s.data.takeWhile (fun c => c ≠ '?') = s.data := by
    apply takeWhile_of_all
    intro c hm
    simp only [decide_eq_true_eq]
    intro he
    rw [he] at hm
    exact hq hm
  rw [h3, h4]
  have hcond : (usesParams [] && decide (';' ∈ s.data)) = false := by
    simp [hsemi]
  rw [hcond]
  simp

/-- C7: every manifest table declaration is named from its declared source
file, never from the row-type URI — the whole production list maps each
declaration to the file-name extraction, the row-type attribute has no
influence on the name — and on a plain file path the extraction is exactly the
spec's description: base name with the path prefix stripped, the extension
after the first dot stripped, and the result lower-cased. -/
theorem summarize_tables_name_from_filename :
    (∀ decls : List ManifestTableDecl,
      (summarize_tables decls).map TableDefinition.name
        = decls.map (fun d => extract_table_name_from_filename (declFilename d))) ∧
    (∀ filename : String, plainPath filename →
      extract_table_name_from_filename filename
        = specTableNameFromFilename filename) ∧
    (∀ (d : ManifestTableDecl) (rt : Option String),
      (summarizeOneTable { d with rowType := rt }).name
        = (summarizeOneTable d).name) := by
  refine ⟨?_, ?_, ?_⟩
  · intro decls
    rw [summarize_tables, List.map_map]
    rfl
  · intro filename hpl
    unfold extract_table_name_from_filename specTableNameFromFilename
    rw [urlparsePath_plain filename hpl]
  · intro d rt
    rfl

/-- Witness for C7 on the concrete location "occurrence.txt". -/
theorem summarize_tables_name_from_filename_witness :
    plainPath "occurrence.txt" ∧
    extract_table_name_from_filename "occurrence.txt"
      = specTableNameFromFilename "occurrence.txt" :=
  ⟨by decide, summarize_tables_name_from_filename.2.1 "occurrence.txt" (by decide)⟩

end DwcaTools
